import Mathlib

/-!
Verification development for the ClipRelay client (`client/src/cp_client.py`).

The pure extraction pipeline (`extract_code`), the per-message handling of the
receive loop, and the reconnect-supervisor loop of `ClientRunner.run` are
shallowly embedded as executable Lean definitions below, translated from the
Python source.  Modelling conventions:

* Python `\d` is modelled as ASCII digits (`Char.isDigit`); `\s` as
  `Char.isWhitespace`; `str.strip()` strips those whitespace characters from
  both ends.  `re.IGNORECASE` on the purely ASCII-lowercase keyword literals is
  modelled by letting each pattern character also match its ASCII uppercase
  counterpart (CJK characters have no case and match literally).
* `json.loads` is an external library call; its outcome on a frame is
  abstracted by `JsonOutcome` (parse error / parsed non-object, on which
  `.get` raises / parsed object, carrying `str(data.get("text", ""))`).
* The `websockets` transport and the asynchronous scheduler are external;
  one iteration of the supervisor loop is abstracted by `ConnOutcome`
  (how the connection attempt ended) together with the values the code reads
  from `stop_event.is_set()` at its check points.
-/

namespace ClipRelay

/-! ### Basic list-of-characters helpers -/

/-- Character at index `i` of a list (the character `s[i]` of a Python string). -/
def atIdx : List Char → Nat → Option Char
  | [], _ => none
  | c :: _, 0 => some c
  | _ :: cs, n + 1 => atIdx cs n

/-- The character at index `i` exists and is an ASCII digit. -/
def charDigitAt (s : List Char) (i : Nat) : Bool :=
  match atIdx s i with
  | some c => c.isDigit
  | none => false

/-- The character at index `i` exists and is not an ASCII digit. -/
def charNonDigitAt (s : List Char) (i : Nat) : Bool :=
  match atIdx s i with
  | some c => !c.isDigit
  | none => false

/-- Model of Python `str.strip()` on the character list. -/
def trimList (s : List Char) : List Char :=
  ((s.dropWhile Char.isWhitespace).reverse.dropWhile Char.isWhitespace).reverse

/-- Length of the maximal digit run starting at the head of the list. -/
def digitRunLen : List Char → Nat
  | [] => 0
  | c :: cs => if c.isDigit then digitRunLen cs + 1 else 0

/-- Index of the first digit character, if any. -/
def firstDigitIdx : List Char → Option Nat
  | [] => none
  | c :: cs => if c.isDigit then some 0 else (firstDigitIdx cs).map (· + 1)

/-! ### Keyword matching (the `(?:验证码|…|code)` alternation, `re.IGNORECASE`) -/

/-- ASCII uppercase counterpart of a character (identity off `a`–`z`).  Applied
only to the concrete lowercase pattern characters of the keyword literals. -/
def upperA (c : Char) : Char :=
  if 'a' ≤ c ∧ c ≤ 'z' then Char.ofNat (c.toNat - 32) else c

/-- Case-insensitive match of pattern character `a` (given in lowercase)
against text character `b`: models `re.IGNORECASE` for ASCII patterns. -/
def ciChar (a b : Char) : Bool := b == a || b == upperA a

/-- `litPreCI w s`: the text `s` starts with the literal `w`, matching
case-insensitively (ASCII). -/
def litPreCI : List Char → List Char → Bool
  | [], _ => true
  | _ :: _, [] => false
  | a :: as, b :: bs => ciChar a b && litPreCI as bs

/-- Number of leading whitespace characters (a greedy `\s*`). -/
def wsCount (s : List Char) : Nat := (s.takeWhile Char.isWhitespace).length

/-- Number of leading characters matching `[-\s]` (greedy `[-\s]*`). -/
def dashWsCount (s : List Char) : Nat :=
  (s.takeWhile (fun c => c == '-' || c.isWhitespace)).length

/-- A single-literal keyword alternative; returns the number of characters it
consumes when it matches at the head of `s`. -/
def kwLit (w : String) (s : List Char) : Option Nat :=
  if litPreCI w.data s then some w.data.length else none

/-- A keyword alternative of the form `w1\s*w2` (greedy `\s*`, which is forced
here: a shorter run of consumed whitespace would put a whitespace character
where `w2` must start). -/
def kwTwoWord (w1 w2 : String) (s : List Char) : Option Nat :=
  if litPreCI w1.data s then
    let rest := s.drop w1.data.length
    let w := wsCount rest
    if litPreCI w2.data (rest.drop w) then some (w1.data.length + w + w2.data.length)
    else none
  else none

/-- The alternative `one[-\s]*time\s*(?:password|passcode)?`.  The quantifiers
are greedy; backtracking into them can only shorten the match and cannot turn
an overall failure of the surrounding pattern into a success (the `\D{0,20}`
window that follows only shrinks), so the greedy parse is the semantics. -/
def kwOneTime (s : List Char) : Option Nat :=
  if litPreCI "one".data s then
    let r1 := s.drop 3
    let d := dashWsCount r1
    if litPreCI "time".data (r1.drop d) then
      let r2 := (r1.drop d).drop 4
      let w := wsCount r2
      let r3 := r2.drop w
      if litPreCI "password".data r3 then some (3 + d + 4 + w + 8)
      else if litPreCI "passcode".data r3 then some (3 + d + 4 + w + 8)
      else some (3 + d + 4 + w)
    else none
  else none

/-- The keyword alternatives, in the order they appear in the source pattern. -/
def kwAlts : List (List Char → Option Nat) :=
  [kwLit "验证码", kwLit "校验码", kwLit "动态码", kwLit "短信码",
   kwLit "登录码", kwLit "提取码", kwLit "otp", kwLit "passcode",
   kwTwoWord "verification" "code", kwTwoWord "security" "code",
   kwOneTime, kwLit "code"]

/-- Try a list of alternatives in order (the regex alternation). -/
def tryAlts : List (List Char → Option Nat) → List Char → Option Nat
  | [], _ => none
  | f :: fs, s =>
    match f s with
    | some k => some k
    | none => tryAlts fs s

/-- `kwMatch s`: the keyword alternation matches at the head of `s`, consuming
the returned number of characters. -/
def kwMatch (s : List Char) : Option Nat := tryAlts kwAlts s

/-! ### The three `re.search` calls of `extract_code` -/

/-- `gapToKw fuel s`: some gap of at most `fuel` non-digit characters is
followed by a keyword match (the `\D{0,20}keyword` tail of the second
pattern; success is all that matters there). -/
def gapToKw : Nat → List Char → Bool
  | 0, s => (kwMatch s).isSome
  | fuel + 1, s =>
    (kwMatch s).isSome ||
      match s with
      | [] => false
      | c :: cs => !c.isDigit && gapToKw fuel cs

/-- Match of `keyword\D{0,20}(?<!\d)(\d{4,8})(?!\d)` starting at position `q`.
After the keyword, `\D{0,20}` can only reach the first digit character (it
cannot skip digits), so the match requires that first digit to be at distance
at most 20 and to start a maximal digit run of length 4–8; the lookbehind
holds because the preceding character is the gap's (or keyword's) non-digit. -/
def matchS1At (l : List Char) (q : Nat) : Option (List Char) :=
  match kwMatch (l.drop q) with
  | none => none
  | some k =>
    let rest := l.drop (q + k)
    match firstDigitIdx rest with
    | none => none
    | some g =>
      if g ≤ 20 then
        let m := digitRunLen (rest.drop g)
        if 4 ≤ m ∧ m ≤ 8 then some ((rest.drop g).take m) else none
      else none

/-- Match of `(?<!\d)(\d{4,8})(?!\d)\D{0,20}keyword` starting at position `q`:
an isolated 4–8 digit run at `q` followed, within 20 non-digit characters,
by a keyword. -/
def matchS2At (l : List Char) (q : Nat) : Option (List Char) :=
  let rest := l.drop q
  let m := digitRunLen rest
  if (q = 0 ∨ charNonDigitAt l (q - 1) = true) ∧ 4 ≤ m ∧ m ≤ 8 ∧
      gapToKw 20 (rest.drop m) = true then
    some (rest.take m)
  else none

/-- Match of the fallback `(?<!\d)(\d{4,8})(?!\d)` starting at position `q`:
an isolated 4–8 digit run. -/
def matchS3At (l : List Char) (q : Nat) : Option (List Char) :=
  let rest := l.drop q
  let m := digitRunLen rest
  if (q = 0 ∨ charNonDigitAt l (q - 1) = true) ∧ 4 ≤ m ∧ m ≤ 8 then
    some (rest.take m)
  else none

/-- First position (scanning left to right, as `re.search` does) at which the
positional matcher succeeds. -/
def firstSome (f : Nat → Option (List Char)) : List Nat → Option (List Char)
  | [] => none
  | q :: qs =>
    match f q with
    | some r => some r
    | none => firstSome f qs

/-- First `re.search`: keyword then digits. -/
def search1 (l : List Char) : Option (List Char) :=
  firstSome (matchS1At l) (List.range l.length)

/-- Second `re.search`: digits then keyword. -/
def search2 (l : List Char) : Option (List Char) :=
  firstSome (matchS2At l) (List.range l.length)

/-- Third `re.search`: first isolated 4–8 digit run anywhere. -/
def search3 (l : List Char) : Option (List Char) :=
  firstSome (matchS3At l) (List.range l.length)

/-- `extract_code` on the character list: trim; empty → empty; otherwise the
three searches in order, falling back to the trimmed text. -/
def extractL (s : List Char) : List Char :=
  let t := trimList s
  if t = [] then []
  else
    match search1 t with
    | some r => r
    | none =>
      match search2 t with
      | some r => r
      | none =>
        match search3 t with
        | some r => r
        | none => t

/-- Model of `extract_code` (cp_client.py, lines 101–117) on strings. -/
def extract_code (text : String) : String := String.mk (extractL text.data)

/-- Model of `extract_code` as called at the Python boundary, where the
argument may be `None`: `(text or "")` maps `None` to `""`. -/
def extract_code_py (text : Option String) : String := extract_code (text.getD "")

/-! ### Per-message handling of the receive loop (run, lines 160–175) -/

/-- Abstracted outcome of `json.loads(msg)` on one frame:
`parseError` — `json.loads` raises; `notDict` — it returns a non-object, so
`data.get` raises `AttributeError`; `dictText s` — it returns an object and
`s = str(data.get("text", ""))`. -/
inductive JsonOutcome
  | parseError
  | notDict
  | dictText (s : String)
deriving DecidableEq

/-- The `raw` text the session extracts from one frame (the
`try: … json.loads … except: raw = str(msg)` block). -/
def sessionRaw : JsonOutcome → String → String
  | JsonOutcome.dictText s, _ => s
  | JsonOutcome.parseError, msg => msg
  | JsonOutcome.notDict, msg => msg

/-- Handling of one inbound frame: `some c` means `pyperclip.copy(c)` is
called (`if code:` — Python truthiness of a string is non-emptiness),
`none` means no clipboard write. -/
def handleMessage (o : JsonOutcome) (msg : String) : Option String :=
  let code := extract_code (sessionRaw o msg)
  if code = "" then none else some code

/-! ### The reconnect-supervisor loop (run, lines 141–200) -/

/-- Lifecycle states, as written into the status register by `run`. -/
inductive Status
  | idle | connecting | connected | disconnected | error | stopped
deriving DecidableEq

/-- How one iteration of the `while not self.stop_event.is_set()` body ends.
The booleans are the values the code reads from `stop_event.is_set()` at its
check points (the stop event is set externally and is monotone).
`connectFail` — `websockets.connect` raises; `recvClose` — the receive loop
ends with no exception (remote close); `recvExn` — an exception surfaces
while connected; `recvStopBreak` — the stop signal is observed inside the
receive loop (so it is still set at the check that follows). -/
inductive ConnOutcome
  | connectFail (stopAtExcept : Bool)
  | recvClose (stopAfterRecv : Bool)
  | recvExn (stopAtExcept : Bool)
  | recvStopBreak
deriving DecidableEq

/-- One scripted iteration: the value of `stop_event.is_set()` at the loop
guard, and how the connection attempt then ends. -/
structure IterInput where
  stopAtGuard : Bool
  outcome : ConnOutcome
deriving DecidableEq

/-- Effects of one loop-body execution given the current `retry` value:
statuses written (in order), backoff sleeps performed, the new `retry`, and
whether the body breaks out of the loop.  On a successful connection the code
sets `retry = 1` before anything else can read it, so the close/exception
paths sleep `1` and then set `retry = min (1 * 2) 30`. -/
def iterEffects (retry : Nat) : ConnOutcome → List Status × List Nat × Nat × Bool
  | ConnOutcome.connectFail stopE =>
    if stopE then ([Status.connecting], [], retry, true)
    else ([Status.connecting, Status.error], [retry], min (retry * 2) 30, false)
  | ConnOutcome.recvClose stopC =>
    if stopC then ([Status.connecting, Status.connected], [], 1, true)
    else ([Status.connecting, Status.connected, Status.disconnected], [1], min (1 * 2) 30, false)
  | ConnOutcome.recvExn stopE =>
    if stopE then ([Status.connecting, Status.connected], [], 1, true)
    else ([Status.connecting, Status.connected, Status.error], [1], min (1 * 2) 30, false)
  | ConnOutcome.recvStopBreak => ([Status.connecting, Status.connected], [], 1, true)

/-- The supervisor loop run against a script of iteration inputs, starting
from the given `retry` value; returns the statuses written and the sleeps
performed.  Exiting the loop (guard false, or a `break`) writes the final
`stopped` status; an exhausted script models a still-running loop. -/
def runLoop : Nat → List IterInput → List Status × List Nat
  | _, [] => ([], [])
  | retry, inp :: rest =>
    if inp.stopAtGuard then ([Status.stopped], [])
    else
      let eff := iterEffects retry inp.outcome
      if eff.2.2.2 then (eff.1 ++ [Status.stopped], eff.2.1)
      else
        let tail := runLoop eff.2.2.1 rest
        (eff.1 ++ tail.1, eff.2.1 ++ tail.2)

/-- A script of `n` consecutive failed connection attempts with the stop
signal never set. -/
def failScript (n : Nat) : List IterInput :=
  List.replicate n ⟨false, ConnOutcome.connectFail false⟩

/-- An iteration input carries a set stop signal at one of the points the
code checks it. -/
def hasStopSignal (inp : IterInput) : Bool :=
  inp.stopAtGuard ||
    match inp.outcome with
    | ConnOutcome.connectFail s => s
    | ConnOutcome.recvClose s => s
    | ConnOutcome.recvExn s => s
    | ConnOutcome.recvStopBreak => true

/-! ### Specification-side predicates about digit runs -/

/-- An isolated digit run of length 4–8 at position `p`: `n` digit characters
not adjacent to any further digit (the `(?<!\d)(\d{4,8})(?!\d)` shape). -/
def IsolatedRunAt (s : List Char) (p n : Nat) : Prop :=
  4 ≤ n ∧ n ≤ 8 ∧ p + n ≤ s.length ∧
  (∀ i, i < n → charDigitAt s (p + i) = true) ∧
  (p = 0 ∨ charNonDigitAt s (p - 1) = true) ∧
  (p + n = s.length ∨ charNonDigitAt s (p + n) = true)

instance (s : List Char) (p n : Nat) : Decidable (IsolatedRunAt s p n) := by
  unfold IsolatedRunAt
  exact inferInstance

/-- A digit run of length 4–8 at position `p` that is embedded in a longer
numeric sequence: adjacent to at least one further digit. -/
def EmbeddedRunAt (s : List Char) (p n : Nat) : Prop :=
  4 ≤ n ∧ n ≤ 8 ∧ p + n ≤ s.length ∧
  (∀ i, i < n → charDigitAt s (p + i) = true) ∧
  ((p ≠ 0 ∧ charDigitAt s (p - 1) = true) ∨ charDigitAt s (p + n) = true)

instance (s : List Char) (p n : Nat) : Decidable (EmbeddedRunAt s p n) := by
  unfold EmbeddedRunAt
  exact inferInstance

/-- The digit-run segment `s[p .. p+n)`. -/
def seg (s : List Char) (p n : Nat) : List Char := (s.drop p).take n

/-- All characters of the segment from `a` (inclusive) to `b` (exclusive)
are non-digits. -/
def nonDigitSeg (s : List Char) (a b : Nat) : Bool :=
  ((s.drop a).take (b - a)).all (fun c => !c.isDigit)

/-- The run at `(p, n)` lies within 20 non-digit characters of a keyword
occurrence, on either side (the spec's notion of keyword proximity). -/
def nearKw (s : List Char) (p n : Nat) : Bool :=
  (List.range (s.length + 1)).any (fun q =>
    match kwMatch (s.drop q) with
    | some k =>
      (decide (q + k ≤ p) && decide (p - (q + k) ≤ 20) && nonDigitSeg s (q + k) p) ||
        (decide (p + n ≤ q) && decide (q - (p + n) ≤ 20) && nonDigitSeg s (p + n) q)
    | none => false)

/-- Soundness property of a keyword matcher: a successful match consumes a
positive number of characters, all of them non-digits. -/
def KwSound (f : List Char → Option Nat) : Prop :=
  ∀ s k, f s = some k → 0 < k ∧ (s.take k).all (fun c => !c.isDigit) = true

/-- The sleeps a run of consecutive unsuccessful iterations performs, starting
from retry value `r`: `r`, then doubling capped at 30. -/
def delaysFrom : Nat → Nat → List Nat
  | _, 0 => []
  | r, n + 1 => r :: delaysFrom (min (r * 2) 30) n

/-- A purely numeric string (non-empty, all ASCII digits): the shape of every
selected code, which the claims use to tell a code apart from fallback text. -/
def isNumericCode (s : String) : Bool := !(s == "") && s.data.all Char.isDigit

/-! ### Lemmas: indexing -/

theorem atIdx_some_lt {s : List Char} {i : Nat} {c : Char} (h : atIdx s i = some c) :
    i < s.length := by
  induction s generalizing i with
  | nil => simp [atIdx] at h
  | cons a as ih =>
    cases i with
    | zero => simp
    | succ n => exact Nat.succ_lt_succ (ih (by simpa [atIdx] using h))

theorem atIdx_lt_isSome {s : List Char} {i : Nat} (h : i < s.length) :
    ∃ c, atIdx s i = some c := by
  induction s generalizing i with
  | nil => simp at h
  | cons a as ih =>
    cases i with
    | zero => exact ⟨a, rfl⟩
    | succ n => exact ih (Nat.lt_of_succ_lt_succ h)

theorem atIdx_mem {s : List Char} {i : Nat} {c : Char} (h : atIdx s i = some c) : c ∈ s := by
  induction s generalizing i with
  | nil => simp [atIdx] at h
  | cons a as ih =>
    cases i with
    | zero => simp [atIdx] at h; simp [h]
    | succ n => exact List.mem_cons_of_mem a (ih (by simpa [atIdx] using h))

theorem atIdx_drop (s : List Char) (n i : Nat) : atIdx (s.drop n) i = atIdx s (n + i) := by
  induction n generalizing s with
  | zero => simp
  | succ m ih =>
    cases s with
    | nil => simp [atIdx]
    | cons a as =>
      have : m + 1 + i = (m + i) + 1 := by omega
      simp [this, atIdx, ih as]

theorem atIdx_take {s : List Char} {k i : Nat} (h : i < k) :
    atIdx (s.take k) i = atIdx s i := by
  induction s generalizing i k with
  | nil => simp
  | cons a as ih =>
    cases k with
    | zero => omega
    | succ m =>
      cases i with
      | zero => simp [atIdx]
      | succ j => simpa [atIdx] using ih (Nat.lt_of_succ_lt_succ h)

theorem atIdx_append_right (a x : List Char) (i : Nat) :
    atIdx (a ++ x) (a.length + i) = atIdx x i := by
  induction a with
  | nil => simp
  | cons c cs ih => simpa [atIdx, Nat.succ_add] using ih

theorem atIdx_append_left {a : List Char} (x : List Char) {i : Nat} (h : i < a.length) :
    atIdx (a ++ x) i = atIdx a i := by
  induction a generalizing i with
  | nil => simp at h
  | cons c cs ih =>
    cases i with
    | zero => simp [atIdx]
    | succ j => simpa [atIdx] using ih (Nat.lt_of_succ_lt_succ h)

theorem charDigitAt_drop (s : List Char) (n i : Nat) :
    charDigitAt (s.drop n) i = charDigitAt s (n + i) := by
  simp [charDigitAt, atIdx_drop]

theorem charNonDigitAt_drop (s : List Char) (n i : Nat) :
    charNonDigitAt (s.drop n) i = charNonDigitAt s (n + i) := by
  simp [charNonDigitAt, atIdx_drop]

theorem charDigitAt_lt {s : List Char} {i : Nat} (h : charDigitAt s i = true) : i < s.length := by
  unfold charDigitAt at h
  cases hc : atIdx s i with
  | none => rw [hc] at h; cases h
  | some c => exact atIdx_some_lt hc

theorem charNonDigitAt_lt {s : List Char} {i : Nat} (h : charNonDigitAt s i = true) :
    i < s.length := by
  unfold charNonDigitAt at h
  cases hc : atIdx s i with
  | none => rw [hc] at h; cases h
  | some c => exact atIdx_some_lt hc

theorem charDigit_not_nonDigit {s : List Char} {i : Nat} (h1 : charDigitAt s i = true)
    (h2 : charNonDigitAt s i = true) : False := by
  unfold charDigitAt at h1
  unfold charNonDigitAt at h2
  cases hc : atIdx s i with
  | none => rw [hc] at h1; cases h1
  | some c =>
    rw [hc] at h1 h2
    simp at h1
    simp [h1] at h2

theorem all_atIdx {s : List Char} {p : Char → Bool} (h : s.all p = true)
    {i : Nat} {c : Char} (hc : atIdx s i = some c) : p c = true :=
  (List.all_eq_true.mp h) c (atIdx_mem hc)

theorem all_of_atIdx {s : List Char} {p : Char → Bool}
    (h : ∀ i c, atIdx s i = some c → p c = true) : s.all p = true := by
  induction s with
  | nil => rfl
  | cons a as ih =>
    simp only [List.all_cons, Bool.and_eq_true]
    exact ⟨h 0 a rfl, ih fun i c hc => h (i + 1) c (by simpa [atIdx] using hc)⟩

/-! ### Lemmas: digit runs -/

theorem digitRunLen_le (s : List Char) : digitRunLen s ≤ s.length := by
  induction s with
  | nil => simp [digitRunLen]
  | cons c cs ih =>
    by_cases hc : c.isDigit
    · simp [digitRunLen, hc]
      omega
    · simp [digitRunLen, hc]

theorem digitRunLen_digits (s : List Char) : ∀ i, i < digitRunLen s → charDigitAt s i = true := by
  induction s with
  | nil => simp [digitRunLen]
  | cons c cs ih =>
    intro i hi
    by_cases hc : c.isDigit
    · cases i with
      | zero => simpa [charDigitAt, atIdx] using hc
      | succ j =>
        have hj : j < digitRunLen cs := by
          simp [digitRunLen, hc] at hi; omega
        simpa [charDigitAt, atIdx] using ih j hj
    · simp [digitRunLen, hc] at hi

theorem digitRunLen_end (s : List Char) :
    digitRunLen s = s.length ∨ charNonDigitAt s (digitRunLen s) = true := by
  induction s with
  | nil => left; rfl
  | cons c cs ih =>
    by_cases hc : c.isDigit
    · rcases ih with h | h
      · left; simp [digitRunLen, hc, h]
      · right; simpa [digitRunLen, hc, charNonDigitAt, atIdx] using h
    · right; simp [digitRunLen, hc, charNonDigitAt, atIdx]

theorem digitRunLen_eq {s : List Char} {n : Nat}
    (hd : ∀ i, i < n → charDigitAt s i = true)
    (he : n = s.length ∨ charNonDigitAt s n = true) :
    digitRunLen s = n := by
  induction s generalizing n with
  | nil =>
    cases n with
    | zero => rfl
    | succ m =>
      rcases he with h | h
      · simp at h
      · simp [charNonDigitAt, atIdx] at h
  | cons c cs ih =>
    cases n with
    | zero =>
      rcases he with h | h
      · simp at h
      · have hc : c.isDigit = false := by
          simpa [charNonDigitAt, atIdx] using h
        simp [digitRunLen, hc]
    | succ m =>
      have hc : c.isDigit = true := by
        simpa [charDigitAt, atIdx] using hd 0 (Nat.succ_pos m)
      have hcs : digitRunLen cs = m := by
        apply ih
        · intro i hi
          simpa [charDigitAt, atIdx] using hd (i + 1) (Nat.succ_lt_succ hi)
        · rcases he with h | h
          · left; simpa using h
          · right; simpa [charNonDigitAt, atIdx] using h
      simp [digitRunLen, hc, hcs]

theorem firstDigitIdx_digit {s : List Char} {g : Nat} (h : firstDigitIdx s = some g) :
    charDigitAt s g = true := by
  induction s generalizing g with
  | nil => simp [firstDigitIdx] at h
  | cons c cs ih =>
    by_cases hc : c.isDigit
    · have : g = 0 := by simpa [firstDigitIdx, hc] using h.symm
      subst this
      simpa [charDigitAt, atIdx] using hc
    · cases hcs : firstDigitIdx cs with
      | none => simp [firstDigitIdx, hc, hcs] at h
      | some g2 =>
        have : g = g2 + 1 := by simp [firstDigitIdx, hc, hcs] at h; omega
        subst this
        simpa [charDigitAt, atIdx] using ih hcs

theorem firstDigitIdx_before {s : List Char} {g : Nat} (h : firstDigitIdx s = some g) :
    ∀ i, i < g → charNonDigitAt s i = true := by
  induction s generalizing g with
  | nil => simp [firstDigitIdx] at h
  | cons c cs ih =>
    intro i hi
    by_cases hc : c.isDigit
    · have : g = 0 := by simpa [firstDigitIdx, hc] using h.symm
      omega
    · cases hcs : firstDigitIdx cs with
      | none => simp [firstDigitIdx, hc, hcs] at h
      | some g2 =>
        have hg : g = g2 + 1 := by simp [firstDigitIdx, hc, hcs] at h; omega
        subst hg
        cases i with
        | zero => simp [charNonDigitAt, atIdx, hc]
        | succ j =>
          simpa [charNonDigitAt, atIdx] using ih hcs j (Nat.lt_of_succ_lt_succ hi)

/-! ### Lemmas: characters and prefixes -/

theorem ws_not_digit {c : Char} (h : c.isWhitespace = true) : c.isDigit = false := by
  simp [Char.isWhitespace] at h
  rcases h with ((h | h) | h) | h <;> subst h <;> decide

theorem all_weaken {p q : Char → Bool} {s : List Char} (h : s.all p = true)
    (hpq : ∀ c, p c = true → q c = true) : s.all q = true := by
  induction s with
  | nil => rfl
  | cons a as ih =>
    simp only [List.all_cons, Bool.and_eq_true] at h ⊢
    exact ⟨hpq a h.1, ih h.2⟩

theorem takeWhile_take (p : Char → Bool) (s : List Char) :
    s.take (s.takeWhile p).length = s.takeWhile p := by
  induction s with
  | nil => rfl
  | cons c cs ih =>
    by_cases hc : p c <;> simp [List.takeWhile_cons, hc, ih]

theorem takeWhile_all (p : Char → Bool) (s : List Char) : (s.takeWhile p).all p = true := by
  induction s with
  | nil => rfl
  | cons c cs ih =>
    by_cases hc : p c <;> simp [List.takeWhile_cons, hc, ih]

theorem all_take_append2 {s : List Char} {a b : Nat} {p : Char → Bool}
    (ha : (s.take a).all p = true) (hb : ((s.drop a).take b).all p = true) :
    (s.take (a + b)).all p = true := by
  rw [List.take_add]
  simp only [List.all_append, Bool.and_eq_true]
  exact ⟨ha, hb⟩

theorem litPreCI_nondigit {w s : List Char}
    (hw : w.all (fun c => !c.isDigit) = true)
    (hwu : (w.map upperA).all (fun c => !c.isDigit) = true)
    (h : litPreCI w s = true) :
    (s.take w.length).all (fun c => !c.isDigit) = true := by
  induction w generalizing s with
  | nil => simp
  | cons a as ih =>
    cases s with
    | nil => simp [litPreCI] at h
    | cons b bs =>
      simp only [litPreCI, ciChar, Bool.and_eq_true, Bool.or_eq_true, beq_iff_eq] at h
      obtain ⟨hab, hrest⟩ := h
      simp only [List.all_cons, Bool.and_eq_true, List.map_cons] at hw hwu
      have hb : (!b.isDigit) = true := by
        rcases hab with rfl | rfl
        · exact hw.1
        · exact hwu.1
      simp only [List.length_cons, List.take_succ_cons, List.all_cons, Bool.and_eq_true]
      exact ⟨hb, ih hw.2 hwu.2 hrest⟩

/-! ### Lemmas: keyword-matcher soundness

A successful keyword match consumes a positive number of characters, all of
them non-digits (keywords contain no digit characters, and the flexible
whitespace the two-word and one-time alternatives absorb is non-digit too). -/

theorem wsRun_nondigit (s : List Char) :
    (s.take (wsCount s)).all (fun c => !c.isDigit) = true := by
  unfold wsCount
  rw [takeWhile_take]
  exact all_weaken (takeWhile_all _ s) fun c hc => by simp [ws_not_digit hc]

theorem dashWsRun_nondigit (s : List Char) :
    (s.take (dashWsCount s)).all (fun c => !c.isDigit) = true := by
  unfold dashWsCount
  rw [takeWhile_take]
  refine all_weaken (takeWhile_all _ s) fun c hc => ?_
  simp only [Bool.or_eq_true, beq_iff_eq] at hc
  rcases hc with rfl | hc
  · decide
  · simp [ws_not_digit hc]

theorem kwLit_sound {w : String}
    (hw : w.data.all (fun c => !c.isDigit) = true)
    (hwu : (w.data.map upperA).all (fun c => !c.isDigit) = true)
    (hne : w.data ≠ []) :
    KwSound (kwLit w) := by
  intro s k h
  unfold kwLit at h
  split at h
  case isTrue hp =>
    injection h with h
    subst h
    exact ⟨List.length_pos.mpr hne, litPreCI_nondigit hw hwu hp⟩
  case isFalse => cases h

theorem kwTwoWord_sound {w1 w2 : String}
    (h1 : w1.data.all (fun c => !c.isDigit) = true)
    (h1u : (w1.data.map upperA).all (fun c => !c.isDigit) = true)
    (h2 : w2.data.all (fun c => !c.isDigit) = true)
    (h2u : (w2.data.map upperA).all (fun c => !c.isDigit) = true)
    (hne : w1.data ≠ []) :
    KwSound (kwTwoWord w1 w2) := by
  intro s k h
  simp only [kwTwoWord] at h
  split at h
  case isFalse => cases h
  case isTrue hp1 =>
    split at h
    case isFalse => cases h
    case isTrue hp2 =>
      injection h with h
      subst h
      refine ⟨by have := List.length_pos.mpr hne; omega, ?_⟩
      apply all_take_append2
      · exact all_take_append2 (litPreCI_nondigit h1 h1u hp1) (wsRun_nondigit _)
      · rw [← List.drop_drop]
        exact litPreCI_nondigit h2 h2u hp2

theorem kwOneTime_sound : KwSound kwOneTime := by
  intro s k h
  simp only [kwOneTime] at h
  split at h
  case isFalse => cases h
  case isTrue hp1 =>
    split at h
    case isFalse => cases h
    case isTrue hp2 =>
      set d := dashWsCount (List.drop 3 s) with hd
      set w := wsCount (List.drop 4 (List.drop d (List.drop 3 s))) with hw
      have hdrop34 : List.drop 4 (List.drop d (List.drop 3 s)) = List.drop (3 + d + 4) s := by
        rw [List.drop_drop, List.drop_drop]
        exact congrArg (fun n => List.drop n s) (by omega)
      have hdrop5 : List.drop w (List.drop 4 (List.drop d (List.drop 3 s))) =
          List.drop (3 + d + 4 + w) s := by
        rw [hdrop34, List.drop_drop]
      have hpre4 : ((s.take (3 + d + 4)).all fun c => !c.isDigit) = true := by
        apply all_take_append2
        · exact all_take_append2
            (litPreCI_nondigit (w := "one".data) (by decide) (by decide) hp1)
            (dashWsRun_nondigit _)
        · rw [← List.drop_drop]
          exact litPreCI_nondigit (w := "time".data) (by decide) (by decide) hp2
      have hpre5 : ((s.take (3 + d + 4 + w)).all fun c => !c.isDigit) = true := by
        apply all_take_append2 hpre4
        rw [← hdrop34, hw]
        exact wsRun_nondigit _
      split at h
      case isTrue hp3 =>
        injection h with h
        subst h
        refine ⟨by omega, ?_⟩
        apply all_take_append2 hpre5
        rw [← hdrop5]
        exact litPreCI_nondigit (w := "password".data) (by decide) (by decide) hp3
      case isFalse =>
        split at h
        case isTrue hp3 =>
          injection h with h
          subst h
          refine ⟨by omega, ?_⟩
          apply all_take_append2 hpre5
          rw [← hdrop5]
          exact litPreCI_nondigit (w := "passcode".data) (by decide) (by decide) hp3
        case isFalse =>
          injection h with h
          subst h
          exact ⟨by omega, hpre5⟩

theorem tryAlts_sound {alts : List (List Char → Option Nat)}
    (h : ∀ f ∈ alts, KwSound f) : KwSound (tryAlts alts) := by
  induction alts with
  | nil => intro s k hk; simp [tryAlts] at hk
  | cons f fs ih =>
    intro s k hk
    unfold tryAlts at hk
    cases hf : f s with
    | some k2 =>
      rw [hf] at hk
      injection hk with hk
      subst hk
      exact h f (by simp) s _ hf
    | none =>
      rw [hf] at hk
      exact ih (fun g hg => h g (by simp [hg])) s k hk

theorem kwMatch_sound : KwSound kwMatch := by
  apply tryAlts_sound
  intro f hf
  simp only [kwAlts, List.mem_cons, List.not_mem_nil, or_false] at hf
  rcases hf with rfl | rfl | rfl | rfl | rfl | rfl | rfl | rfl | rfl | rfl | rfl | rfl
  · exact kwLit_sound (by decide) (by decide) (by decide)
  · exact kwLit_sound (by decide) (by decide) (by decide)
  · exact kwLit_sound (by decide) (by decide) (by decide)
  · exact kwLit_sound (by decide) (by decide) (by decide)
  · exact kwLit_sound (by decide) (by decide) (by decide)
  · exact kwLit_sound (by decide) (by decide) (by decide)
  · exact kwLit_sound (by decide) (by decide) (by decide)
  · exact kwLit_sound (by decide) (by decide) (by decide)
  · exact kwTwoWord_sound (by decide) (by decide) (by decide) (by decide) (by decide)
  · exact kwTwoWord_sound (by decide) (by decide) (by decide) (by decide) (by decide)
  · exact kwOneTime_sound
  · exact kwLit_sound (by decide) (by decide) (by decide)

/-! ### Lemmas: soundness and completeness of the three searches -/

theorem matchS3At_sound {l : List Char} {q : Nat} {r : List Char}
    (h : matchS3At l q = some r) :
    ∃ n, IsolatedRunAt l q n ∧ r = seg l q n := by
  simp only [matchS3At] at h
  split at h
  case isFalse => cases h
  case isTrue hc =>
    obtain ⟨hb, h4, h8⟩ := hc
    injection h with h
    refine ⟨digitRunLen (l.drop q), ?_, h.symm⟩
    have hml := digitRunLen_le (l.drop q)
    rw [List.length_drop] at hml
    refine ⟨h4, h8, by omega, ?_, hb, ?_⟩
    · intro i hi
      have := digitRunLen_digits (l.drop q) i hi
      rwa [charDigitAt_drop] at this
    · rcases digitRunLen_end (l.drop q) with he | he
      · left
        rw [List.length_drop] at he
        omega
      · right
        rwa [charNonDigitAt_drop] at he

theorem matchS2At_sound {l : List Char} {q : Nat} {r : List Char}
    (h : matchS2At l q = some r) :
    ∃ n, IsolatedRunAt l q n ∧ r = seg l q n := by
  simp only [matchS2At] at h
  split at h
  case isFalse => cases h
  case isTrue hc =>
    obtain ⟨hb, h4, h8, _⟩ := hc
    injection h with h
    refine ⟨digitRunLen (l.drop q), ?_, h.symm⟩
    have hml := digitRunLen_le (l.drop q)
    rw [List.length_drop] at hml
    refine ⟨h4, h8, by omega, ?_, hb, ?_⟩
    · intro i hi
      have := digitRunLen_digits (l.drop q) i hi
      rwa [charDigitAt_drop] at this
    · rcases digitRunLen_end (l.drop q) with he | he
      · left
        rw [List.length_drop] at he
        omega
      · right
        rwa [charNonDigitAt_drop] at he

theorem matchS1At_sound {l : List Char} {q : Nat} {r : List Char}
    (h : matchS1At l q = some r) :
    ∃ p n, IsolatedRunAt l p n ∧ r = seg l p n := by
  cases hk : kwMatch (l.drop q) with
  | none => simp [matchS1At, hk] at h
  | some k =>
    simp only [matchS1At, hk] at h
    cases hg : firstDigitIdx (l.drop (q + k)) with
    | none => simp [hg] at h
    | some g =>
      simp only [hg] at h
      split at h
      case isFalse => cases h
      case isTrue hg20 =>
        split at h
        case isFalse => cases h
        case isTrue hm =>
          obtain ⟨h4, h8⟩ := hm
          injection h with h
          have hkw := kwMatch_sound (l.drop q) k hk
          have hdd : List.drop g (List.drop (q + k) l) = List.drop (q + k + g) l := by
            rw [List.drop_drop]
          rw [hdd] at h h4 h8
          refine ⟨q + k + g, digitRunLen (l.drop (q + k + g)), ?_, h.symm⟩
          have hml := digitRunLen_le (l.drop (q + k + g))
          rw [List.length_drop] at hml
          refine ⟨h4, h8, by omega, ?_, ?_, ?_⟩
          · intro i hi
            have := digitRunLen_digits (l.drop (q + k + g)) i hi
            rwa [charDigitAt_drop] at this
          · -- the character before the run is the gap's (g > 0) or the
            -- keyword's (g = 0) non-digit character
            right
            rcases Nat.eq_zero_or_pos g with hgz | hgz
            · have hk0 : 0 < k := hkw.1
              have hdig : charDigitAt l (q + k) = true := by
                have h0 := firstDigitIdx_digit hg
                rw [charDigitAt_drop, hgz, Nat.add_zero] at h0
                exact h0
              have hlen := charDigitAt_lt hdig
              obtain ⟨c, hc⟩ := atIdx_lt_isSome (s := l) (i := q + (k - 1)) (by omega)
              have hcd : atIdx (List.drop q l) (k - 1) = some c := by
                rw [atIdx_drop]
                exact hc
              have hct : atIdx ((List.drop q l).take k) (k - 1) = some c := by
                rw [atIdx_take (by omega)]
                exact hcd
              have hnd := all_atIdx hkw.2 hct
              have heq : q + k + g - 1 = q + (k - 1) := by omega
              rw [heq]
              unfold charNonDigitAt
              rw [hc]
              simpa using hnd
            · have hbef := firstDigitIdx_before hg (g - 1) (by omega)
              rw [charNonDigitAt_drop] at hbef
              have heq : q + k + g - 1 = q + k + (g - 1) := by omega
              rw [heq]
              exact hbef
          · rcases digitRunLen_end (l.drop (q + k + g)) with he | he
            · left
              rw [List.length_drop] at he
              omega
            · right
              rwa [charNonDigitAt_drop] at he

theorem firstSome_some {f : Nat → Option (List Char)} {qs : List Nat} {r : List Char}
    (h : firstSome f qs = some r) : ∃ q, q ∈ qs ∧ f q = some r := by
  induction qs with
  | nil => simp [firstSome] at h
  | cons q qs ih =>
    unfold firstSome at h
    cases hq : f q with
    | some r2 =>
      rw [hq] at h
      injection h with h
      subst h
      exact ⟨q, by simp, hq⟩
    | none =>
      rw [hq] at h
      obtain ⟨q2, hm, hf⟩ := ih h
      exact ⟨q2, by simp [hm], hf⟩

theorem firstSome_isSome {f : Nat → Option (List Char)} {qs : List Nat} {q : Nat}
    {r : List Char} (hm : q ∈ qs) (hf : f q = some r) :
    (firstSome f qs).isSome = true := by
  induction qs with
  | nil => simp at hm
  | cons a as ih =>
    unfold firstSome
    cases ha : f a with
    | some r2 => simp
    | none =>
      rcases List.mem_cons.mp hm with rfl | hm2
      · rw [ha] at hf; cases hf
      · exact ih hm2

theorem search1_sound {l : List Char} {r : List Char} (h : search1 l = some r) :
    ∃ p n, IsolatedRunAt l p n ∧ r = seg l p n := by
  obtain ⟨q, _, hq⟩ := firstSome_some h
  exact matchS1At_sound hq

theorem search2_sound {l : List Char} {r : List Char} (h : search2 l = some r) :
    ∃ p n, IsolatedRunAt l p n ∧ r = seg l p n := by
  obtain ⟨q, _, hq⟩ := firstSome_some h
  obtain ⟨n, hr, hs⟩ := matchS2At_sound hq
  exact ⟨q, n, hr, hs⟩

theorem search3_sound {l : List Char} {r : List Char} (h : search3 l = some r) :
    ∃ p n, IsolatedRunAt l p n ∧ r = seg l p n := by
  obtain ⟨q, _, hq⟩ := firstSome_some h
  obtain ⟨n, hr, hs⟩ := matchS3At_sound hq
  exact ⟨q, n, hr, hs⟩

theorem search3_complete {l : List Char} {p n : Nat} (h : IsolatedRunAt l p n) :
    (search3 l).isSome = true := by
  obtain ⟨h4, h8, hlen, hd, hb, he⟩ := h
  have hm : digitRunLen (l.drop p) = n := by
    apply digitRunLen_eq
    · intro i hi
      rw [charDigitAt_drop]
      exact hd i hi
    · rcases he with he | he
      · left
        rw [List.length_drop]
        omega
      · right
        rwa [charNonDigitAt_drop]
  have hmatch : matchS3At l p = some ((l.drop p).take n) := by
    simp only [matchS3At, hm]
    rw [if_pos ⟨hb, h4, h8⟩]
  exact firstSome_isSome (List.mem_range.mpr (by omega)) hmatch

/-- Case analysis on `extract_code`: empty trimmed input, a successful search
(returning an isolated 4–8 digit run of the trimmed text), or the fallback to
the trimmed text with all three searches failing. -/
theorem extract_dichotomy (text : String) :
    (extract_code text = "" ∧ trimList text.data = []) ∨
    (∃ p n, IsolatedRunAt (trimList text.data) p n ∧
      extract_code text = String.mk (seg (trimList text.data) p n)) ∨
    (search1 (trimList text.data) = none ∧ search2 (trimList text.data) = none ∧
      search3 (trimList text.data) = none ∧ trimList text.data ≠ [] ∧
      extract_code text = String.mk (trimList text.data)) := by
  by_cases ht : trimList text.data = []
  · left
    refine ⟨?_, ht⟩
    simp [extract_code, extractL, ht]
  · right
    cases h1 : search1 (trimList text.data) with
    | some r =>
      left
      obtain ⟨p, n, hr, hseg⟩ := search1_sound h1
      exact ⟨p, n, hr, by simp [extract_code, extractL, ht, h1, hseg]⟩
    | none =>
      cases h2 : search2 (trimList text.data) with
      | some r =>
        left
        obtain ⟨p, n, hr, hseg⟩ := search2_sound h2
        exact ⟨p, n, hr, by simp [extract_code, extractL, ht, h1, h2, hseg]⟩
      | none =>
        cases h3 : search3 (trimList text.data) with
        | some r =>
          left
          obtain ⟨p, n, hr, hseg⟩ := search3_sound h3
          exact ⟨p, n, hr, by simp [extract_code, extractL, ht, h1, h2, h3, hseg]⟩
        | none =>
          right
          exact ⟨rfl, rfl, rfl, ht, by simp [extract_code, extractL, ht, h1, h2, h3]⟩

/-! ### Lemmas: trimming -/

theorem dropWhile_head_not {p : Char → Bool} {s : List Char} {c : Char} {cs : List Char}
    (h : s.dropWhile p = c :: cs) : p c = false := by
  induction s with
  | nil => simp [List.dropWhile] at h
  | cons a as ih =>
    by_cases ha : p a
    · rw [List.dropWhile_cons_of_pos ha] at h
      exact ih h
    · rw [List.dropWhile_cons_of_neg ha] at h
      injection h with h1 _
      subst h1
      simpa using ha

theorem dropWhile_fix {p : Char → Bool} {s : List Char}
    (h : ∀ c cs, s = c :: cs → p c = false) : s.dropWhile p = s := by
  cases s with
  | nil => rfl
  | cons c cs => rw [List.dropWhile_cons_of_neg (by simp [h c cs rfl])]

theorem dropWhile_getLast? {p : Char → Bool} (s : List Char)
    (h : s.dropWhile p ≠ []) : (s.dropWhile p).getLast? = s.getLast? := by
  conv_rhs => rw [← List.takeWhile_append_dropWhile (p := p) (l := s)]
  rw [List.getLast?_append_of_ne_nil _ h]

theorem trimList_getLast?_not_ws {s : List Char} {c : Char}
    (h : (trimList s).getLast? = some c) : Char.isWhitespace c = false := by
  unfold trimList at h
  rw [List.getLast?_reverse] at h
  cases hv : (s.dropWhile Char.isWhitespace).reverse.dropWhile Char.isWhitespace with
  | nil => rw [hv] at h; cases h
  | cons a as =>
    rw [hv] at h
    injection h with h
    subst h
    exact dropWhile_head_not hv

theorem trimList_head?_not_ws {s : List Char} {c : Char}
    (h : (trimList s).head? = some c) : Char.isWhitespace c = false := by
  unfold trimList at h
  rw [List.head?_reverse] at h
  set u := s.dropWhile Char.isWhitespace with hu
  have hne : u.reverse.dropWhile Char.isWhitespace ≠ [] := by
    intro hz
    rw [hz] at h
    cases h
  rw [dropWhile_getLast? _ hne, List.getLast?_reverse] at h
  cases hcu : u with
  | nil => rw [hcu] at h; cases h
  | cons a as =>
    rw [hcu] at h
    injection h with h
    subst h
    exact dropWhile_head_not hcu

theorem trimList_idem (s : List Char) : trimList (trimList s) = trimList s := by
  have h1 : (trimList s).dropWhile Char.isWhitespace = trimList s := by
    apply dropWhile_fix
    intro c cs hc
    exact trimList_head?_not_ws (by rw [hc]; rfl)
  have h2 : (trimList s).reverse.dropWhile Char.isWhitespace = (trimList s).reverse := by
    apply dropWhile_fix
    intro c cs hc
    apply trimList_getLast?_not_ws (s := s)
    rw [← List.head?_reverse, hc]
    rfl
  show ((((trimList s).dropWhile Char.isWhitespace).reverse).dropWhile
      Char.isWhitespace).reverse = trimList s
  rw [h1, h2, List.reverse_reverse]

theorem trimList_decomp (s : List Char) :
    ∃ a b, s = a ++ trimList s ++ b ∧ a.all Char.isWhitespace = true ∧
      b.all Char.isWhitespace = true := by
  refine ⟨s.takeWhile Char.isWhitespace,
    ((s.dropWhile Char.isWhitespace).reverse.takeWhile Char.isWhitespace).reverse,
    ?_, ?_, ?_⟩
  · set u := s.dropWhile Char.isWhitespace with hu
    have hsplit : s = s.takeWhile Char.isWhitespace ++ u :=
      (List.takeWhile_append_dropWhile ..).symm
    have hrev : u.reverse = u.reverse.takeWhile Char.isWhitespace ++
        u.reverse.dropWhile Char.isWhitespace :=
      (List.takeWhile_append_dropWhile ..).symm
    have hur : u = (u.reverse.dropWhile Char.isWhitespace).reverse ++
        (u.reverse.takeWhile Char.isWhitespace).reverse := by
      conv_lhs => rw [← List.reverse_reverse u]
      rw [← List.reverse_append]
      exact congrArg List.reverse hrev
    conv_lhs => rw [hsplit, hur]
    rw [List.append_assoc]
    rfl
  · exact takeWhile_all _ _
  · rw [List.all_reverse]
    exact takeWhile_all _ _

/-- Transplanting an isolated run of the middle part of `a ++ t ++ b` (with
all-whitespace flanks) to the full list. -/
theorem isolatedRun_embed {a t b : List Char} {p n : Nat}
    (ha : a.all Char.isWhitespace = true) (hb : b.all Char.isWhitespace = true)
    (h : IsolatedRunAt t p n) : IsolatedRunAt (a ++ t ++ b) (a.length + p) n := by
  obtain ⟨h4, h8, hlen, hd, hbefore, hafter⟩ := h
  have hidx : ∀ j, j < t.length → atIdx (a ++ t ++ b) (a.length + j) = atIdx t j := by
    intro j hj
    rw [List.append_assoc, atIdx_append_right, atIdx_append_left _ hj]
  refine ⟨h4, h8, by simp [List.length_append]; omega, ?_, ?_, ?_⟩
  · intro i hi
    have hji : p + i < t.length := by omega
    unfold charDigitAt
    have heq : a.length + p + i = a.length + (p + i) := by omega
    rw [heq, hidx _ hji]
    exact hd i hi
  · rcases hbefore with hp0 | hnd
    · subst hp0
      by_cases hae : a = []
      · subst hae
        left
        simp
      · right
        have hal : 0 < a.length := List.length_pos.mpr hae
        obtain ⟨c, hc⟩ := atIdx_lt_isSome (s := a) (i := a.length - 1) (by omega)
        have hcw := all_atIdx ha hc
        unfold charNonDigitAt
        have heq : a.length + 0 - 1 = a.length - 1 := by omega
        rw [heq, List.append_assoc, atIdx_append_left _ (by omega), hc]
        simp [ws_not_digit hcw]
    · rcases Nat.eq_zero_or_pos p with hp0 | hp1
      · exfalso
        subst hp0
        exact charDigit_not_nonDigit (by simpa using hd 0 (by omega)) (by simpa using hnd)
      · right
        have hplt : p - 1 < t.length := by omega
        unfold charNonDigitAt at hnd ⊢
        have heq : a.length + p - 1 = a.length + (p - 1) := by omega
        rw [heq, hidx _ hplt]
        exact hnd
  · rcases hafter with hend | hnd
    · by_cases hbe : b = []
      · subst hbe
        left
        simp [List.length_append]
        omega
      · right
        have hbl : 0 < b.length := List.length_pos.mpr hbe
        obtain ⟨c, hc⟩ := atIdx_lt_isSome (s := b) (i := 0) hbl
        have hcw := all_atIdx hb hc
        unfold charNonDigitAt
        have heq : a.length + p + n = a.length + (t.length + 0) := by omega
        rw [heq, List.append_assoc, atIdx_append_right, atIdx_append_right, hc]
        simp [ws_not_digit hcw]
    · right
      have hplt : p + n < t.length := charNonDigitAt_lt hnd
      unfold charNonDigitAt at hnd ⊢
      have heq : a.length + p + n = a.length + (p + n) := by omega
      rw [heq, hidx _ hplt]
      exact hnd

theorem noRun_trim {s : List Char} (h : ∀ p n, ¬ IsolatedRunAt s p n) :
    ∀ p n, ¬ IsolatedRunAt (trimList s) p n := by
  intro p n hr
  obtain ⟨a, b, hs, ha, hb⟩ := trimList_decomp s
  have := isolatedRun_embed ha hb hr
  rw [← hs] at this
  exact h _ n this

/-! ### Lemmas: segments, bounds and string embedding -/

theorem seg_length {s : List Char} {p n : Nat} (h : p + n ≤ s.length) :
    (seg s p n).length = n := by
  simp [seg, List.length_take, List.length_drop]
  omega

theorem seg_all_digits {s : List Char} {p n : Nat} (h : IsolatedRunAt s p n) :
    (seg s p n).all Char.isDigit = true := by
  obtain ⟨h4, h8, hlen, hd, _, _⟩ := h
  apply all_of_atIdx
  intro i c hc
  have hi : i < n := by
    have hlt := atIdx_some_lt hc
    rwa [seg_length hlen] at hlt
  unfold seg at hc
  rw [atIdx_take hi, atIdx_drop] at hc
  have hdi := hd i hi
  unfold charDigitAt at hdi
  rw [hc] at hdi
  exact hdi

theorem mk_inj {l1 l2 : List Char} (h : String.mk l1 = String.mk l2) : l1 = l2 :=
  congrArg String.data h

theorem isolated_bounds {s : List Char} {p n : Nat} (h : IsolatedRunAt s p n) :
    p < s.length ∧ n < 9 := by
  obtain ⟨h4, h8, hlen, _, _, _⟩ := h
  omega

theorem noRun_of_bounded {s : List Char}
    (h : ∀ p, p < s.length → ∀ n, n < 9 → ¬ IsolatedRunAt s p n) :
    ∀ p n, ¬ IsolatedRunAt s p n := by
  intro p n hr
  obtain ⟨hp, hn⟩ := isolated_bounds hr
  exact h p hp n hn hr

theorem uniqueRun_of_bounded {s : List Char} {p n : Nat}
    (h : ∀ p2, p2 < s.length → ∀ n2, n2 < 9 → IsolatedRunAt s p2 n2 → p2 = p ∧ n2 = n) :
    ∀ p2 n2, IsolatedRunAt s p2 n2 → p2 = p ∧ n2 = n := by
  intro p2 n2 hr
  obtain ⟨hp, hn⟩ := isolated_bounds hr
  exact h p2 hp n2 hn hr

/-! ### Lemmas: the supervisor loop -/

theorem runLoop_fail_delays (r n : Nat) :
    (runLoop r (failScript n)).2 = delaysFrom r n := by
  induction n generalizing r with
  | zero => rfl
  | succ m ih =>
    have hcons : failScript (m + 1) =
        ⟨false, ConnOutcome.connectFail false⟩ :: failScript m := by
      simp [failScript, List.replicate_succ]
    rw [hcons]
    simp only [runLoop, iterEffects, delaysFrom]
    simp [ih]

theorem min_double_pow (k : Nat) : min (min (2 ^ k) 30 * 2) 30 = min (2 ^ (k + 1)) 30 := by
  have hp : 2 ^ (k + 1) = 2 ^ k * 2 := pow_succ 2 k
  omega

theorem delaysFrom_pow (n k : Nat) :
    delaysFrom (min (2 ^ k) 30) n =
      (List.range n).map (fun i => min (2 ^ (k + i)) 30) := by
  induction n generalizing k with
  | zero => simp [delaysFrom]
  | succ m ih =>
    simp only [delaysFrom]
    rw [min_double_pow k, ih (k + 1), List.range_succ_eq_map, List.map_cons, List.map_map]
    have hf : (fun i => min (2 ^ (k + 1 + i)) 30) =
        ((fun i => min (2 ^ (k + i)) 30) ∘ Nat.succ) := by
      funext i
      have harith : k + 1 + i = k + (i + 1) := by omega
      simp [Function.comp, harith]
    rw [hf]
    simp

theorem runLoop_no_stop {script : List IterInput}
    (h : ∀ inp ∈ script, hasStopSignal inp = false) :
    ∀ r : Nat, Status.stopped ∉ (runLoop r script).1 ∧
      (runLoop r script).1.count Status.connecting = script.length := by
  induction script with
  | nil => intro r; simp [runLoop]
  | cons inp rest ih =>
    intro r
    obtain ⟨g, oc⟩ := inp
    have hinp := h ⟨g, oc⟩ (by simp)
    have hrest := fun i hi => h i (List.mem_cons_of_mem _ hi)
    cases oc with
    | connectFail st =>
      obtain ⟨rfl, rfl⟩ : g = false ∧ st = false := by
        simpa [hasStopSignal] using hinp
      have hih := ih hrest (min (r * 2) 30)
      refine ⟨?_, ?_⟩
      · simp [runLoop, iterEffects]
        exact fun hmem => hih.1 hmem
      · simp [runLoop, iterEffects, List.count_append, hih.2, List.count_cons]
    | recvClose st =>
      obtain ⟨rfl, rfl⟩ : g = false ∧ st = false := by
        simpa [hasStopSignal] using hinp
      have hih := ih hrest 2
      refine ⟨?_, ?_⟩
      · simp [runLoop, iterEffects]
        exact fun hmem => hih.1 hmem
      · simp [runLoop, iterEffects, List.count_append, hih.2, List.count_cons]
    | recvExn st =>
      obtain ⟨rfl, rfl⟩ : g = false ∧ st = false := by
        simpa [hasStopSignal] using hinp
      have hih := ih hrest 2
      refine ⟨?_, ?_⟩
      · simp [runLoop, iterEffects]
        exact fun hmem => hih.1 hmem
      · simp [runLoop, iterEffects, List.count_append, hih.2, List.count_cons]
    | recvStopBreak =>
      simp [hasStopSignal] at hinp

theorem runLoop_stop_truncates (r : Nat) (inp : IterInput) (rest : List IterInput)
    (h : hasStopSignal inp = true) :
    runLoop r (inp :: rest) = runLoop r [inp] ∧
    (runLoop r (inp :: rest)).1.getLast? = some Status.stopped := by
  obtain ⟨g, oc⟩ := inp
  cases g with
  | true => exact ⟨rfl, rfl⟩
  | false =>
    cases oc with
    | connectFail st =>
      have hst : st = true := by simpa [hasStopSignal] using h
      subst hst
      exact ⟨rfl, rfl⟩
    | recvClose st =>
      have hst : st = true := by simpa [hasStopSignal] using h
      subst hst
      exact ⟨rfl, rfl⟩
    | recvExn st =>
      have hst : st = true := by simpa [hasStopSignal] using h
      subst hst
      exact ⟨rfl, rfl⟩
    | recvStopBreak => exact ⟨rfl, rfl⟩

/-! ### Claim theorems -/

/-- C1 (counterexample): for the inbound envelope whose `text` is
`Security code is 123.` (no isolated 4–8 digit run), extraction falls back to
the original text and the Session DOES perform a clipboard write — it copies
the whole fallback text, because `run` forwards any non-empty extraction
result (`if code:`) without checking that it is purely 4–8 digits.  This
refutes the claim that no clipboard write happens. -/
theorem C1_counterexample :
    handleMessage (JsonOutcome.dictText "Security code is 123.")
      "\x7b\"text\": \"Security code is 123.\"\x7d" =
      some "Security code is 123." := by
  decide

/-- C1 (amended): the Session forwards every non-empty extraction result to
the Clipboard Sink, with no purely-digits check; for the envelope whose text
is `Security code is 123.` the non-empty fallback (the original text) is
written to the clipboard, and only an empty extraction result (empty or
all-whitespace text) suppresses the write. -/
theorem C1_amended_nonempty_forwarded :
    (∀ (o : JsonOutcome) (msg : String),
      (handleMessage o msg).isSome = !(extract_code (sessionRaw o msg) == "")) ∧
    handleMessage (JsonOutcome.dictText "Security code is 123.")
      "\x7b\"text\": \"Security code is 123.\"\x7d" =
      some "Security code is 123." ∧
    handleMessage (JsonOutcome.dictText "   ") "\x7b\"text\": \"   \"\x7d" = none := by
  refine ⟨?_, by decide, by decide⟩
  intro o msg
  simp only [handleMessage]
  split
  case isTrue h => simp [h]
  case isFalse h => simp [h]

/-- C2: starting from retry value 1, `n` consecutive failed connection
attempts without an intervening success sleep exactly
`1, 2, 4, 8, 16, 30, 30, …` seconds (`min (2 ^ i) 30`); and after any
transition to connected (`retry = 1` is set), the sleep at that connection's
termination — normal close or exception — is `1` regardless of the previous
retry value, after which a run of failures sleeps `2, 4, 8, 16, 30, …`. -/
theorem C2_backoff_delays :
    (∀ n : Nat, (runLoop 1 (failScript n)).2 =
      (List.range n).map (fun i => min (2 ^ i) 30)) ∧
    (∀ retry : Nat,
      (iterEffects retry (ConnOutcome.recvClose false)).2.1 = [1] ∧
      (iterEffects retry (ConnOutcome.recvExn false)).2.1 = [1]) ∧
    (∀ (retry n : Nat),
      (runLoop retry (⟨false, ConnOutcome.recvClose false⟩ :: failScript n)).2 =
        1 :: (List.range n).map (fun i => min (2 ^ (1 + i)) 30)) := by
  refine ⟨?_, ?_, ?_⟩
  · intro n
    rw [runLoop_fail_delays]
    have h0 : (1 : Nat) = min (2 ^ 0) 30 := by decide
    rw [h0, delaysFrom_pow]
    simp
  · intro retry
    exact ⟨by simp [iterEffects], by simp [iterEffects]⟩
  · intro retry n
    have hdp := delaysFrom_pow n 1
    norm_num at hdp
    simp only [runLoop, iterEffects]
    simp [runLoop_fail_delays, hdp]

/-- C3: from `connected` with the stop signal unset, a normal remote close
(receive loop ends without exception) writes exactly
`connecting, connected, disconnected` — `disconnected`, never `error`; an
exception surfacing while connected writes exactly
`connecting, connected, error` — `error`, never `disconnected`. -/
theorem C3_close_vs_error (retry : Nat) :
    (iterEffects retry (ConnOutcome.recvClose false)).1 =
      [Status.connecting, Status.connected, Status.disconnected] ∧
    Status.error ∉ (iterEffects retry (ConnOutcome.recvClose false)).1 ∧
    (iterEffects retry (ConnOutcome.recvExn false)).1 =
      [Status.connecting, Status.connected, Status.error] ∧
    Status.disconnected ∉ (iterEffects retry (ConnOutcome.recvExn false)).1 := by
  refine ⟨?_, ?_, ?_, ?_⟩ <;> simp [iterEffects]

/-- C4: the supervisor loop exits only because of the stop signal — with the
stop signal never set it writes no `stopped` status and performs one
connection attempt (`connecting`) per scripted iteration; once the stop
signal is observed in an iteration, the remaining script is never reached
(no further connection attempts) and the final status write is `stopped`,
after which nothing follows. -/
theorem C4_stop_only_exit :
    (∀ script : List IterInput, (∀ inp ∈ script, hasStopSignal inp = false) →
      ∀ r : Nat, Status.stopped ∉ (runLoop r script).1 ∧
        (runLoop r script).1.count Status.connecting = script.length) ∧
    (∀ (r : Nat) (inp : IterInput) (rest : List IterInput),
      hasStopSignal inp = true →
      runLoop r (inp :: rest) = runLoop r [inp] ∧
      (runLoop r (inp :: rest)).1.getLast? = some Status.stopped) :=
  ⟨fun _ h r => runLoop_no_stop h r,
   fun r inp rest h => runLoop_stop_truncates r inp rest h⟩

/-- Witness for C4 at concrete inputs: two stop-free failing iterations give
no `stopped` and two `connecting` writes; an iteration with the stop signal
set at the guard ignores the three scripted iterations after it and ends on
`stopped`. -/
theorem C4_stop_only_exit_witness :
    (Status.stopped ∉ (runLoop 1 (failScript 2)).1 ∧
      (runLoop 1 (failScript 2)).1.count Status.connecting = (failScript 2).length) ∧
    (runLoop 1 (⟨true, ConnOutcome.connectFail false⟩ :: failScript 3) =
        runLoop 1 [⟨true, ConnOutcome.connectFail false⟩] ∧
      (runLoop 1 (⟨true, ConnOutcome.connectFail false⟩ :: failScript 3)).1.getLast? =
        some Status.stopped) :=
  ⟨C4_stop_only_exit.1 (failScript 2) (by decide) 1,
   C4_stop_only_exit.2 1 ⟨true, ConnOutcome.connectFail false⟩ (failScript 3) (by decide)⟩

/-- C5 (counterexample): the frame `{"a": 1}` parses as a JSON object without
a `text` field, so the Session's raw text is `str(data.get("text", "")) = ""`
— not the whole raw frame as the claim states for "any other shape" — and no
clipboard write happens (the claim's reading would extract from the frame and
write it). -/
theorem C5_counterexample :
    sessionRaw (JsonOutcome.dictText "") "\x7b\"a\": 1\x7d" = "" ∧
    sessionRaw (JsonOutcome.dictText "") "\x7b\"a\": 1\x7d" ≠ "\x7b\"a\": 1\x7d" ∧
    handleMessage (JsonOutcome.dictText "") "\x7b\"a\": 1\x7d" = none := by
  exact ⟨rfl, by decide, by decide⟩

/-- C5 (amended): only a frame whose JSON parse raises, or which parses to a
non-object (so `.get` raises `AttributeError`), falls back to the whole raw
frame; a frame parsing to a JSON object uses `str` of its `text` value, which
is `""` when the field is absent — such frames produce no clipboard write
rather than falling back to the raw frame.  Per-message handling is total, so
the receive loop is never interrupted by a parse error. -/
theorem C5_amended_raw_fallback :
    (∀ msg : String, sessionRaw JsonOutcome.parseError msg = msg) ∧
    (∀ msg : String, sessionRaw JsonOutcome.notDict msg = msg) ∧
    (∀ s msg : String, sessionRaw (JsonOutcome.dictText s) msg = s) ∧
    handleMessage (JsonOutcome.dictText "") "\x7b\"a\": 1\x7d" = none :=
  ⟨fun _ => rfl, fun _ => rfl, fun _ _ => rfl, by decide⟩

/-- C6: `extract_code` of a string that is empty (or all whitespace, so that
trimming leaves nothing) returns the empty string; and on an input with no
isolated 4–8 digit run anywhere it returns the trimmed input unchanged — no
sentinel value. -/
theorem C6_empty_and_fallback (text : String) :
    (trimList text.data = [] → extract_code text = "") ∧
    ((∀ p n, ¬ IsolatedRunAt text.data p n) →
      extract_code text = String.mk (trimList text.data)) := by
  constructor
  · intro ht
    simp [extract_code, extractL, ht]
  · intro h
    have htr := noRun_trim h
    rcases extract_dichotomy text with ⟨he, ht⟩ | ⟨p, n, hr, _⟩ | ⟨_, _, _, _, he⟩
    · rw [he, ht]
    · exact absurd hr (htr p n)
    · exact he

/-- Witness for C6 at concrete inputs: an all-whitespace string maps to `""`,
and a digit-free string is returned trimmed and unchanged. -/
theorem C6_empty_and_fallback_witness :
    extract_code "   " = "" ∧ extract_code "No digits here." = "No digits here." := by
  constructor
  · exact (C6_empty_and_fallback "   ").1 (by decide)
  · have h2 := (C6_empty_and_fallback "No digits here.").2 (noRun_of_bounded (by decide))
    rw [h2]
    decide

/-- C7: if the trimmed input contains exactly one isolated 4–8 digit run
(position `p`, length `n`), and that run lies within 20 non-digit characters
of a recognized keyword occurrence on either side, then `extract_code`
returns exactly that run. -/
theorem C7_unique_run_near_keyword (text : String) (p n : Nat)
    (h : IsolatedRunAt (trimList text.data) p n)
    (hu : ∀ p2 n2, IsolatedRunAt (trimList text.data) p2 n2 → p2 = p ∧ n2 = n)
    (hk : nearKw (trimList text.data) p n = true) :
    extract_code text = String.mk (seg (trimList text.data) p n) := by
  rcases extract_dichotomy text with ⟨_, ht⟩ | ⟨p2, n2, hr, he⟩ | ⟨_, _, h3, _, _⟩
  · exfalso
    obtain ⟨h4, _, hlen, _, _, _⟩ := h
    rw [ht] at hlen
    simp at hlen
    omega
  · obtain ⟨rfl, rfl⟩ := hu p2 n2 hr
    exact he
  · exfalso
    have hs := search3_complete h
    rw [h3] at hs
    cases hs

/-- Witness for C7: `Use OTP 4831 to sign in.` has exactly one isolated 4–8
digit run, at position 8 of length 4, next to the keyword `OTP`; extraction
returns it. -/
theorem C7_unique_run_near_keyword_witness :
    extract_code "Use OTP 4831 to sign in." =
      String.mk (seg (trimList "Use OTP 4831 to sign in.".data) 8 4) ∧
    String.mk (seg (trimList "Use OTP 4831 to sign in.".data) 8 4) = "4831" := by
  constructor
  · exact C7_unique_run_near_keyword "Use OTP 4831 to sign in." 8 4 (by decide)
      (uniqueRun_of_bounded (by decide)) (by decide)
  · decide

/-- C8: a 4–8 digit run embedded in a longer numeric sequence of the trimmed
input is never the selected occurrence: whenever `extract_code` returns a
string equal to such an embedded segment, the returned occurrence is an
isolated run with the same digits elsewhere in the text; and when the
embedded run is the only candidate (no isolated run exists), the fallback
returns the whole trimmed text, which is strictly longer than the run and so
never equals it. -/
theorem C8_embedded_not_selected (text : String) (p n : Nat)
    (he : EmbeddedRunAt (trimList text.data) p n)
    (hres : extract_code text = String.mk (seg (trimList text.data) p n)) :
    ∃ p2, IsolatedRunAt (trimList text.data) p2 n ∧
      seg (trimList text.data) p2 n = seg (trimList text.data) p n := by
  obtain ⟨h4, h8, hlen, hd, hadj⟩ := he
  rcases extract_dichotomy text with ⟨hres0, ht⟩ | ⟨p2, n2, hr, hr2⟩ | ⟨_, _, _, _, hfall⟩
  · exfalso
    rw [ht] at hlen
    simp at hlen
    omega
  · have hseg := mk_inj (hr2.symm.trans hres)
    have hlen2 := hr.2.2.1
    have l1 := seg_length hlen2
    have l2 := seg_length hlen
    have hn2 : n2 = n := by
      rw [hseg, l2] at l1
      omega
    subst hn2
    exact ⟨p2, hr, hseg⟩
  · exfalso
    have hteq := mk_inj (hfall.symm.trans hres)
    have hlt : n < (trimList text.data).length := by
      rcases hadj with ⟨hp0, hd1⟩ | hd2
      · omega
      · have := charDigitAt_lt hd2
        omega
    have hlen2 := seg_length hlen
    rw [← hteq] at hlen2
    omega

/-- Witness for C8: in `code 1234 ref 123456` the run `1234` at position 14 is
embedded inside `123456`; extraction returns the string `1234`, and the
theorem produces the isolated occurrence (position 5) carrying those digits. -/
theorem C8_embedded_not_selected_witness :
    EmbeddedRunAt (trimList "code 1234 ref 123456".data) 14 4 ∧
    (∃ p2, IsolatedRunAt (trimList "code 1234 ref 123456".data) p2 4 ∧
      seg (trimList "code 1234 ref 123456".data) p2 4 =
        seg (trimList "code 1234 ref 123456".data) 14 4) :=
  ⟨by decide,
   C8_embedded_not_selected "code 1234 ref 123456" 14 4 (by decide) (by decide)⟩

/-- C9: when `extract_code text` is not a purely numeric string — i.e., no
code was selected and the trimmed input (or `""`) was returned — running
`extract_code` again on that output returns it unchanged: the non-code
output is a fixed point. -/
theorem C9_idempotent_on_fallback (text : String)
    (h : isNumericCode (extract_code text) = false) :
    extract_code (extract_code text) = extract_code text := by
  rcases extract_dichotomy text with ⟨he, _⟩ | ⟨p, n, hr, hres⟩ | ⟨h1, h2, h3, ht, hres⟩
  · rw [he]
    decide
  · exfalso
    rw [hres] at h
    unfold isNumericCode at h
    have hall : (seg (trimList text.data) p n).all Char.isDigit = true :=
      seg_all_digits hr
    obtain ⟨h4, _, hlen2, _, _, _⟩ := hr
    have hne : String.mk (seg (trimList text.data) p n) ≠ "" := by
      intro hz
      have hdz : seg (trimList text.data) p n = [] := congrArg String.data hz
      have hl := seg_length hlen2
      rw [hdz] at hl
      simp at hl
      omega
    have hb1 : (String.mk (seg (trimList text.data) p n) == "") = false :=
      beq_eq_false_iff_ne.mpr hne
    rw [hb1] at h
    have hb2 : (String.mk (seg (trimList text.data) p n)).data.all Char.isDigit = true :=
      hall
    rw [hb2] at h
    simp at h
  · rw [hres]
    show String.mk (extractL (trimList text.data)) = String.mk (trimList text.data)
    have hext : extractL (trimList text.data) = trimList text.data := by
      simp only [extractL, trimList_idem]
      simp [ht, h1, h2, h3]
    exact congrArg String.mk hext

/-- Witness for C9: `No digits here.` yields a non-numeric result, and
extraction of that result is a fixed point. -/
theorem C9_idempotent_on_fallback_witness :
    isNumericCode (extract_code "No digits here.") = false ∧
    extract_code (extract_code "No digits here.") = extract_code "No digits here." :=
  ⟨by decide, C9_idempotent_on_fallback "No digits here." (by decide)⟩

/-- C10: at the Python call boundary `extract_code` tolerates the
out-of-contract `None` argument — `(text or "")` turns it into `""` — and
returns the empty string rather than raising, so the extraction step cannot
crash the receive loop. -/
theorem C10_null_input_empty :
    extract_code_py none = "" ∧ extract_code_py (some "") = "" :=
  ⟨rfl, rfl⟩

end ClipRelay
